import Mathlib

/-!
Shallow embedding of scripts/generate-builtin-terminfo.py (foot).

The script parses a terminfo source file into named fragments of
capabilities, expands use= references, patches a fixed set of
capabilities on the selected entry, and serializes the sorted result
into a C string literal.  Strings are modelled as lists of characters;
Python exceptions (AssertionError, KeyError, ValueError,
NotImplementedError) are modelled with an explicit error type.
-/

deriving instance DecidableEq for Except

set_option maxRecDepth 16000

namespace Terminfo

/-- Fatal error conditions of the script, one per Python exception kind. -/
inductive Err where
  | assertionError
  | keyError (key : String)
  | valueError
  | notImplementedError
deriving DecidableEq

/-- Tagged variant for the three capability kinds.  `boolCap` carries no
value (Python stores `True`); `strCap` stores the already-translated
value produced by `StringCapability.__init__`. -/
inductive Capability where
  | boolCap (name : String)
  | intCap (name : String) (value : Int)
  | strCap (name : String) (value : String)
deriving DecidableEq

/-- Mirrors the `Capability.name` property. -/
def Capability.name : Capability → String
  | .boolCap n => n
  | .intCap n _ => n
  | .strCap n _ => n

/-- Mirrors str(cap.value): `True` for booleans, decimal for integers,
the string itself otherwise. -/
def Capability.valueStr : Capability → String
  | .boolCap _ => "True"
  | .intCap _ v => toString v
  | .strCap _ v => v

/-- Python \w for the ASCII inputs the script consumes. -/
def isWordChar (c : Char) : Bool := c.isAlpha || c.isDigit || c = '_'

/-- Character class of the entry-name group: `[-+\w@]`. -/
def isNameChar (c : Char) : Bool := isWordChar c || c = '-' || c = '+' || c = '@'

/-- Octal digits 0-7, the guard class of the \E-split rule. -/
def isOctalDigit (c : Char) : Bool := '0' ≤ c && c ≤ '7'

/-- Hex digits as in the int-capability value group `[0-9a-fA-F]`. -/
def isHexDigit (c : Char) : Bool :=
  c.isDigit || ('a' ≤ c && c ≤ 'f') || ('A' ≤ c && c ≤ 'F')

/-- Numeric value of a hex digit. -/
def hexVal (c : Char) : Nat :=
  if c.isDigit then c.toNat - '0'.toNat
  else if 'A' ≤ c && c ≤ 'F' then c.toNat - 'A'.toNat + 10
  else c.toNat - 'a'.toNat + 10

/-- Lowercase hex digit character for a value below 16. -/
def hexDigitChar (n : Nat) : Char :=
  if n < 10 then Char.ofNat ('0'.toNat + n) else Char.ofNat ('a'.toNat + n - 10)

/-- Two lowercase hex digits, Python `f'\x7bn:02x\x7d'` for n below 256. -/
def hex2 (n : Nat) : List Char := [hexDigitChar (n / 16), hexDigitChar (n % 16)]

/-- Character class `[@A-Z[\\\]^_?]` of the control-character rule. -/
def ctrlClass (c : Char) : Bool :=
  c = '@' || ('A' ≤ c && c ≤ 'Z') || c = '[' || c = '\\' || c = ']' ||
    c = '^' || c = '_' || c = '?'

/-- Replacement used by `translate_ctrl_chr`: DEL escape for `?`,
otherwise the two-hex-digit escape of `ord(X) - ord('@')`. -/
def translate_ctrl_chr (c : Char) : List Char :=
  if c = '?' then ['\\', 'x', '7', 'f']
  else '\\' :: 'x' :: hex2 (c.toNat - '@'.toNat)

/-- Leftmost non-overlapping rewriting of `\^([@A-Z[\\\]^_?])`, the first
re.sub of `StringCapability.__init__`. -/
def ctrlSub : List Char → List Char
  | '^' :: c :: rest =>
      if ctrlClass c then translate_ctrl_chr c ++ ctrlSub rest
      else '^' :: ctrlSub (c :: rest)
  | c :: rest => c :: ctrlSub rest
  | [] => []

/-- Replacement text `r'\\033" "\2'` without its trailing digit. -/
def octSplitChars : List Char := ['\\', '0', '3', '3', '"', ' ', '"']

/-- Leftmost non-overlapping rewriting of `(\\E|\\e)([0-7])` to
`\033" "` followed by the digit, the second re.sub of the pipeline. -/
def escGuard : List Char → List Char
  | '\\' :: 'E' :: c :: rest =>
      if isOctalDigit c then octSplitChars ++ c :: escGuard rest
      else '\\' :: 'E' :: escGuard (c :: rest)
  | '\\' :: 'e' :: c :: rest =>
      if isOctalDigit c then octSplitChars ++ c :: escGuard rest
      else '\\' :: 'e' :: escGuard (c :: rest)
  | c :: rest => c :: escGuard rest
  | [] => []

/-- Leftmost non-overlapping rewriting of `\\E|\\e` to `\033`, the third
re.sub of the pipeline. -/
def escAfter : List Char → List Char
  | '\\' :: 'E' :: rest => '\\' :: '0' :: '3' :: '3' :: escAfter rest
  | '\\' :: 'e' :: rest => '\\' :: '0' :: '3' :: '3' :: escAfter rest
  | c :: rest => c :: escAfter rest
  | [] => []

/-- Leftmost non-overlapping rewriting of `\\(,|:|\^)` to the bare
metacharacter, the fourth re.sub of the pipeline. -/
def unescapeMeta : List Char → List Char
  | '\\' :: c :: rest =>
      if c = ',' || c = ':' || c = '^' then c :: unescapeMeta rest
      else '\\' :: unescapeMeta (c :: rest)
  | c :: rest => c :: unescapeMeta rest
  | [] => []

/-- value.replace of `\s` with a space, leftmost non-overlapping. -/
def subS : List Char → List Char
  | '\\' :: 's' :: rest => ' ' :: subS rest
  | c :: rest => c :: subS rest
  | [] => []

/-- re.search for `\\l`: true when a backslash-l pair occurs anywhere. -/
def hasBackslashL : List Char → Bool
  | '\\' :: 'l' :: _ => true
  | _ :: rest => hasBackslashL rest
  | [] => false

/-- Full escape-translation pipeline of `StringCapability.__init__`, in
source order, ending with the NotImplementedError check for `\l`. -/
def translateValue (v : List Char) : Except Err (List Char) :=
  let v1 := ctrlSub v
  let v2 := escGuard v1
  let v3 := escAfter v2
  let v4 := unescapeMeta v3
  let v5 := subS v4
  if hasBackslashL v5 then .error .notImplementedError else .ok v5

/-- Constructor of a String capability: translate the raw source value,
failing exactly when the translated value still contains `\l`. -/
def mkStringCapability (name value : String) : Except Err Capability :=
  (translateValue value.data).map (fun v => .strCap name ⟨v⟩)

/-- Modelled from the spec, for comparison with the implementation: a
single pass that rewrites an ESC escape followed by an octal digit to
`\033" "` plus the digit, and any other ESC escape to `\033` with no
quote split.  This is the statement of the octal-guard rule of section
4.1 of the spec. -/
def escSpecOnePass : List Char → List Char
  | '\\' :: 'E' :: c :: rest =>
      if isOctalDigit c then octSplitChars ++ c :: escSpecOnePass rest
      else '\\' :: '0' :: '3' :: '3' :: escSpecOnePass (c :: rest)
  | '\\' :: 'e' :: c :: rest =>
      if isOctalDigit c then octSplitChars ++ c :: escSpecOnePass rest
      else '\\' :: '0' :: '3' :: '3' :: escSpecOnePass (c :: rest)
  | '\\' :: 'E' :: [] => ['\\', '0', '3', '3']
  | '\\' :: 'e' :: [] => ['\\', '0', '3', '3']
  | c :: rest => c :: escSpecOnePass rest
  | [] => []

example : translateValue "\\E7".data = .ok "\\033\" \"7".data := by decide
example : translateValue "^G".data = .ok "\\x07".data := by decide
example : translateValue "\\l".data = .error .notImplementedError := by decide
example : translateValue "\\,x\\s^?".data = .ok ",x \\x7f".data := by decide

/-- One terminfo entry: a name, a free-text description, and an
insertion-ordered mapping from capability name to capability, the
counterpart of the Python dict. -/
structure Fragment where
  name : String
  description : String
  caps : List (String × Capability)
deriving DecidableEq

/-- Mirrors `Fragment.add_capability`: the assert rejects a name already
present, otherwise the capability is appended under its name. -/
def Fragment.add_capability (f : Fragment) (cap : Capability) : Except Err Fragment :=
  if cap.name ∈ f.caps.map Prod.fst then .error .assertionError
  else .ok ⟨f.name, f.description, f.caps ++ [(cap.name, cap)]⟩

/-- Mirrors `Fragment.del_capability`: deleting an absent key raises
KeyError, otherwise the entry with that key is removed. -/
def Fragment.del_capability (f : Fragment) (n : String) : Except Err Fragment :=
  if n ∈ f.caps.map Prod.fst then
    .ok ⟨f.name, f.description, f.caps.eraseP (fun p => p.1 = n)⟩
  else .error (.keyError n)

/-- The fragment registry: an insertion-ordered mapping from fragment
name to fragment. -/
abbrev Registry := List (String × Fragment)

/-- Mapping lookup on the registry. -/
def lookupReg : Registry → String → Option Fragment
  | [], _ => none
  | (k, f) :: rest, n => if k = n then some f else lookupReg rest n

/-- In-place replacement of the fragment stored under a key, keeping the
position of the entry, as mutation of a dict value does. -/
def updateReg (reg : Registry) (n : String) (f : Fragment) : Registry :=
  reg.map (fun p => if p.1 = n then (p.1, f) else p)

/-- Token stream produced by the finditer scan: one constructor per
alternative of the grammar. -/
inductive Token where
  | entry (name desc : String)
  | boolCap (name : String)
  | intCap (name : String) (val : String)
  | strCap (name : String) (val : String)
deriving DecidableEq

/-- Lazy `(.+?),` matching: the shortest nonempty run of characters that
is followed by a comma, where the dot excludes newlines.  Returns the
run and the remainder after the comma. -/
def lazyUntilComma (acc : List Char) : List Char → Option (List Char × List Char)
  | ',' :: rest => some (acc.reverse, rest)
  | c :: rest => if c = '\n' then none else lazyUntilComma (c :: acc) rest
  | [] => none

/-- Entry-header alternative `([-+\w@]+)\|(.+?),`. -/
def tryEntry (s : List Char) : Option (Token × List Char) :=
  let run := s.takeWhile isNameChar
  if run.isEmpty then none
  else
    match s.dropWhile isNameChar with
    | '|' :: rest =>
        match rest with
        | [] => none
        | c :: rest2 =>
            if c = '\n' then none
            else
              match lazyUntilComma [c] rest2 with
              | some (desc, rest3) => some (.entry ⟨run⟩ ⟨desc⟩, rest3)
              | none => none
    | _ => none

/-- Boolean-capability alternative `(\w+),`. -/
def tryBool (s : List Char) : Option (Token × List Char) :=
  let run := s.takeWhile isWordChar
  if run.isEmpty then none
  else
    match s.dropWhile isWordChar with
    | ',' :: rest => some (.boolCap ⟨run⟩, rest)
    | _ => none

/-- Integer-capability alternative `(\w+)#((0x)?[0-9a-fA-F]+),`. -/
def tryInt (s : List Char) : Option (Token × List Char) :=
  let run := s.takeWhile isWordChar
  if run.isEmpty then none
  else
    match s.dropWhile isWordChar with
    | '#' :: '0' :: 'x' :: rest =>
        let hx := rest.takeWhile isHexDigit
        if hx.isEmpty then none
        else
          match rest.dropWhile isHexDigit with
          | ',' :: rest2 => some (.intCap ⟨run⟩ ⟨'0' :: 'x' :: hx⟩, rest2)
          | _ => none
    | '#' :: rest =>
        let hx := rest.takeWhile isHexDigit
        if hx.isEmpty then none
        else
          match rest.dropWhile isHexDigit with
          | ',' :: rest2 => some (.intCap ⟨run⟩ ⟨hx⟩, rest2)
          | _ => none
    | _ => none

/-- String-capability alternative `(\w+)=((.+?)),`. -/
def tryStr (s : List Char) : Option (Token × List Char) :=
  let run := s.takeWhile isWordChar
  if run.isEmpty then none
  else
    match s.dropWhile isWordChar with
    | '=' :: rest =>
        match rest with
        | [] => none
        | c :: rest2 =>
            if c = '\n' then none
            else
              match lazyUntilComma [c] rest2 with
              | some (v, rest3) => some (.strCap ⟨run⟩ ⟨v⟩, rest3)
              | none => none
    | _ => none

/-- One scan step: the four alternatives tried in the order of the
pattern, first match wins. -/
def tryToken (s : List Char) : Option (Token × List Char) :=
  (tryEntry s).orElse fun _ =>
    (tryBool s).orElse fun _ =>
      (tryInt s).orElse fun _ => tryStr s

/-- Fueled finditer loop: on a match the matched span is consumed, on no
match the scan advances one character, exactly the semantics of
re.finditer.  Every match consumes at least one character, so fuel equal
to the input length is never exhausted. -/
def scanAux : Nat → List Char → List Token
  | 0, _ => []
  | _, [] => []
  | fuel + 1, s@(_ :: rest) =>
      match tryToken s with
      | some (t, r) => t :: scanAux fuel r
      | none => scanAux fuel rest

/-- The token stream of a comment-stripped, concatenated source text. -/
def scanTokens (s : List Char) : List Token := scanAux s.length s

/-- Python int(s, 0) on the strings the value group can produce:
0x-prefixed hexadecimal, all-zero strings, or decimal without a leading
zero; anything else (for example bare hex digits) raises ValueError. -/
def pyIntLit (s : List Char) : Except Err Int :=
  match s with
  | '0' :: 'x' :: rest =>
      if rest ≠ [] ∧ rest.all isHexDigit then
        .ok (Int.ofNat (rest.foldl (fun a c => a * 16 + hexVal c) 0))
      else .error .valueError
  | _ =>
      if s ≠ [] ∧ s.all (· = '0') then .ok 0
      else if s ≠ [] ∧ s.all Char.isDigit ∧ s.head? ≠ some '0' then
        .ok (Int.ofNat (s.foldl (fun a c => a * 10 + (c.toNat - '0'.toNat)) 0))
      else .error .valueError

/-- Adds a capability to the fragment registered under `n`. -/
def addToFrag (reg : Registry) (n : String) (cap : Capability) : Except Err Registry :=
  match lookupReg reg n with
  | none => .error (.keyError n)
  | some f => (f.add_capability cap).map (updateReg reg n)

/-- The parse loop of `main` (lines 150-176): builds the registry from
the token stream, tracking the current fragment.  An entry token whose
name is already registered, or a capability token with no current
fragment, is an AssertionError; the integer literal is converted before
the current-fragment assert, as in the source. -/
def parseGo (reg : Registry) (cur : Option String) : List Token → Except Err Registry
  | [] => .ok reg
  | .entry n d :: ts =>
      if n ∈ reg.map Prod.fst then .error .assertionError
      else parseGo (reg ++ [(n, ⟨n, d, []⟩)]) (some n) ts
  | .boolCap n :: ts =>
      match cur with
      | none => .error .assertionError
      | some cn => do
          let reg' ← addToFrag reg cn (.boolCap n)
          parseGo reg' cur ts
  | .intCap n v :: ts => do
      let iv ← pyIntLit v.data
      match cur with
      | none => .error .assertionError
      | some cn => do
          let reg' ← addToFrag reg cn (.intCap n iv)
          parseGo reg' cur ts
  | .strCap n v :: ts =>
      match cur with
      | none => .error .assertionError
      | some cn => do
          let cap ← mkStringCapability n v
          let reg' ← addToFrag reg cn cap
          parseGo reg' cur ts

/-- Parses a token stream starting from an empty registry. -/
def parseTokens (ts : List Token) : Except Err Registry := parseGo [] none ts

/-- Copies every capability of a source fragment into `f` through
`add_capability`, in insertion order, failing on any duplicate name. -/
def copyCaps (f : Fragment) : List (String × Capability) → Except Err Fragment
  | [] => .ok f
  | (_, cap) :: rest =>
      match f.add_capability cap with
      | .error e => .error e
      | .ok f' => copyCaps f' rest

/-- One iteration of the use-expansion loop body (lines 179-191) for the
fragment registered under `n`: the first capability in insertion order
is inspected; if it is named `use` it must be a String capability, the
referenced fragment is looked up and all its capabilities are copied in;
in every case the inspected capability is then deleted and the inner
loop breaks. -/
def expandFrag (reg : Registry) (n : String) : Except Err Registry :=
  match lookupReg reg n with
  | none => .error (.keyError n)
  | some f =>
    match f.caps with
    | [] => .ok reg
    | (_, cap) :: _ =>
      if cap.name = "use" then
        match cap with
        | .strCap _ v =>
            match lookupReg reg v with
            | none => .error (.keyError v)
            | some useFrag =>
                match copyCaps f useFrag.caps with
                | .error e => .error e
                | .ok f' =>
                    match f'.del_capability cap.name with
                    | .error e => .error e
                    | .ok f'' => .ok (updateReg reg n f'')
        | _ => .error .assertionError
      else
        match f.del_capability cap.name with
        | .error e => .error e
        | .ok f' => .ok (updateReg reg n f')

/-- Folds the loop body over a list of fragment names. -/
def expandGo (reg : Registry) : List String → Except Err Registry
  | [] => .ok reg
  | n :: rest =>
      match expandFrag reg n with
      | .error e => .error e
      | .ok reg' => expandGo reg' rest

/-- The whole use-expansion pass: the loop body applied to every
registered fragment in registry order. -/
def expandAll (reg : Registry) : Except Err Registry :=
  expandGo reg (reg.map Prod.fst)

/-- try: del RGB, except KeyError: pass. -/
def tryDelRGB (f : Fragment) : Fragment :=
  match f.del_capability "RGB" with
  | .ok f' => f'
  | .error _ => f

/-- The patch step of `main` (lines 195-204) on the selected entry: drop
RGB if present, then add Co=256, TN, name, RGB=8 and query-os-name
through `add_capability`; the two string insertions run the value
through the StringCapability constructor. -/
def patch (f : Fragment) (targetName osName : String) : Except Err Fragment := do
  let f0 := tryDelRGB f
  let f1 ← f0.add_capability (.intCap "Co" 256)
  let tn ← mkStringCapability "TN" targetName
  let f2 ← f1.add_capability tn
  let nm ← mkStringCapability "name" targetName
  let f3 ← f2.add_capability nm
  let f4 ← f3.add_capability (.intCap "RGB" 8)
  let q ← mkStringCapability "query-os-name" osName
  f4.add_capability q

/-- Lexicographic less-or-equal on character lists by code point, the
order Python uses to compare strings. -/
def charListLe : List Char → List Char → Bool
  | [], _ => true
  | _ :: _, [] => false
  | a :: as, b :: bs =>
      if a.toNat < b.toNat then true
      else if b.toNat < a.toNat then false
      else charListLe as bs

/-- Comparison handed to sorted(): capabilities compare solely by name
(`Capability.__lt__` and friends). -/
def capLe (a b : Capability) : Bool := charListLe a.name.data b.name.data

/-- Stable insertion of a capability into a name-sorted list: on a tie
the inserted element goes first, which together with the right-fold
below reproduces the unique stable sort that Python sorted computes. -/
def orderedInsertCap (c : Capability) : List Capability → List Capability
  | [] => [c]
  | d :: rest => if capLe c d then c :: d :: rest else d :: orderedInsertCap c rest

/-- sorted(entry.caps.values()): Python sorted is the stable sort by the
name order, and a stable sort is extensionally unique, so it is embedded
as stable insertion sort. -/
def sortedCaps : List Capability → List Capability
  | [] => []
  | c :: rest => orderedInsertCap c (sortedCaps rest)

/-- value.replace of `'"'` with `'\"'`; the Python literal `'\"'` is the
one-character string `"`, so each quote is replaced by a quote. -/
def escapeQuote : List Char → List Char
  | '"' :: rest => '"' :: escapeQuote rest
  | c :: rest => c :: escapeQuote rest
  | [] => []

/-- The serializer loop body: for each capability, the escaped name and
then either an empty field (booleans) or the escaped textual value. -/
def partsOf : List Capability → List (List Char)
  | [] => []
  | c :: rest =>
      escapeQuote (Capability.name c).data ::
        (match c with
         | .boolCap _ => []
         | _ => escapeQuote (Capability.valueStr c).data) :: partsOf rest

/-- The join delimiter `'\\0" "'`: backslash, 0, quote, space, quote. -/
def sepChars : List Char := ['\\', '0', '"', ' ', '"']

/-- Join of the serialized fields with the delimiter. -/
def joinParts : List (List Char) → List Char
  | [] => []
  | [p] => p
  | p :: q :: rest => p ++ sepChars ++ joinParts (q :: rest)

/-- Serialized form of a capability set: sort, emit fields, join. -/
def serializeEntry (caps : List Capability) : String :=
  ⟨joinParts (partsOf (sortedCaps caps))⟩

/-- Text written before the joined capability fields. -/
def headerText : String := "#pragma once\n\nstatic const char terminfo_capabilities[] = \""

/-- Text written after the joined capability fields. -/
def footerText : String := "\";\n"

/-- The complete output written to the target file for a fragment. -/
def render (f : Fragment) : String :=
  headerText ++ serializeEntry (f.caps.map Prod.snd) ++ footerText

/-- The pipeline from a parsed registry to the output text: expand use
references, select the source entry (KeyError when absent), patch it,
serialize it. -/
def processRegistry (reg : Registry) (srcName targetName osName : String) :
    Except Err String := do
  let reg' ← expandAll reg
  match lookupReg reg' srcName with
  | none => .error (.keyError srcName)
  | some entry => do
      let entry' ← patch entry targetName osName
      .ok (render entry')

/-- Python whitespace stripped by str.strip. -/
def isPySpace (c : Char) : Bool :=
  c = ' ' || c = '\t' || c = '\n' || c = '\r' || c = '\x0b' || c = '\x0c'

/-- str.strip. -/
def pyStrip (l : List Char) : List Char :=
  ((l.dropWhile isPySpace).reverse.dropWhile isPySpace).reverse

/-- Splits a text into physical lines at newlines. -/
def splitLines : List Char → List (List Char)
  | [] => [[]]
  | '\n' :: rest => [] :: splitLines rest
  | c :: rest =>
      match splitLines rest with
      | l :: ls => (c :: l) :: ls
      | [] => [[c]]

/-- Line preprocessing of `main` (lines 133-138 and 148): strip each
line, drop comment lines, concatenate the rest with no separator. -/
def preprocess (text : String) : List Char :=
  (((splitLines text.data).map pyStrip).filter
      (fun l => match l with | '#' :: _ => false | _ => true)).foldr (· ++ ·) []

/-- The whole run of `main` on already-opened streams: preprocess,
tokenize, parse, expand, patch, render. -/
def run (srcName : String) (sourceText : String) (targetName osName : String) :
    Except Err String := do
  let reg ← parseTokens (scanTokens (preprocess sourceText))
  processRegistry reg srcName targetName osName

example : scanTokens (preprocess "xterm|X terminal emulator,\n\tbool1,\n\tnum1#15,\n\tstr1=hi\\,there,\n") =
    [.entry "xterm" "X terminal emulator", .boolCap "bool1",
     .intCap "num1" "15", .strCap "str1" "hi\\", .boolCap "there"] := by decide

/-- Number of entries stored under a capability name. -/
def countKey (caps : List (String × Capability)) (n : String) : Nat :=
  (caps.filter (fun p => p.1 = n)).length

/-- Mapping lookup on a capability list. -/
def lookupCap : List (String × Capability) → String → Option Capability
  | [], _ => none
  | (k, c) :: rest, n => if k = n then some c else lookupCap rest n

theorem lookupCap_append_right (a b : List (String × Capability)) (n : String)
    (h : n ∉ a.map Prod.fst) : lookupCap (a ++ b) n = lookupCap b n := by
  induction a with
  | nil => rfl
  | cons p rest ih =>
      simp only [List.map_cons, List.mem_cons] at h
      push_neg at h
      simpa [lookupCap, Ne.symm h.1] using ih h.2

theorem countKey_append (a b : List (String × Capability)) (n : String) :
    countKey (a ++ b) n = countKey a n + countKey b n := by
  simp [countKey, List.filter_append]

theorem countKey_eq_zero_of_not_mem (a : List (String × Capability)) (n : String)
    (h : n ∉ a.map Prod.fst) : countKey a n = 0 := by
  induction a with
  | nil => rfl
  | cons p rest ih =>
      simp only [List.map_cons, List.mem_cons] at h
      push_neg at h
      simpa [countKey, List.filter_cons, Ne.symm h.1] using ih h.2

theorem countKey_pos_of_mem (a : List (String × Capability)) (n : String)
    (h : n ∈ a.map Prod.fst) : 0 < countKey a n := by
  induction a with
  | nil => simp at h
  | cons p rest ih =>
      rcases List.mem_cons.mp h with h1 | h2
      · simp [countKey, List.filter_cons, h1.symm]
      · by_cases he : p.1 = n
        · simp [countKey, List.filter_cons, he]
        · simpa [countKey, List.filter_cons, he] using ih h2

theorem countKey_eraseP_self (a : List (String × Capability)) (n : String) :
    countKey (a.eraseP (fun p => p.1 = n)) n = countKey a n - 1 := by
  induction a with
  | nil => rfl
  | cons p rest ih =>
      rcases Decidable.em (p.1 = n) with he | he
      · simp [List.eraseP_cons, countKey, List.filter_cons, he]
      · simpa [List.eraseP_cons, countKey, List.filter_cons, he] using ih

theorem countKey_eraseP_ne (a : List (String × Capability)) (n m : String)
    (hnm : m ≠ n) : countKey (a.eraseP (fun p => p.1 = n)) m = countKey a m := by
  induction a with
  | nil => rfl
  | cons p rest ih =>
      by_cases he : p.1 = n
      · simp [List.eraseP_cons, countKey, List.filter_cons, he, Ne.symm hnm]
      · by_cases hm : p.1 = m
        · simpa [List.eraseP_cons, countKey, List.filter_cons, he, hm, hnm] using ih
        · simpa [List.eraseP_cons, countKey, List.filter_cons, he, hm, hnm] using ih

theorem not_mem_keys_eraseP (a : List (String × Capability)) (n m : String)
    (h : m ∉ a.map Prod.fst) : m ∉ (a.eraseP (fun p => p.1 = n)).map Prod.fst := by
  intro hm
  exact h (List.map_subset Prod.fst (List.eraseP_sublist a).subset hm)

/-- Claim C1.  The claim states that after the inheritance-expansion
pass a fragment A with a capability use=B holds all of B's capabilities
plus its own and no use capability.  The code instead inspects only the
first capability of each fragment and deletes it unconditionally: on the
source below, A (capabilities b, use=B in insertion order) ends the pass
as exactly the single capability use=B — its capability b is gone, B's x
and y were never copied, and the use capability remains — while B loses
x.  This theorem evaluates the parse and expansion passes on that
source. -/
theorem claim1_use_expansion_deletes_first_capability :
    (parseTokens (scanTokens (preprocess "A|da,b,use=B,B|db,x,y,"))).bind expandAll =
      .ok [("A", ⟨"A", "da", [("use", .strCap "use" "B")]⟩),
           ("B", ⟨"B", "db", [("y", .boolCap "y")]⟩)] := by decide

/-- Claim C2, counterexample.  The claim states that a token matching
none of the four grammar alternatives aborts the whole run with no
output.  The text below contains the token `@@@,` which matches no
alternative at any position; re.finditer silently skips it, the
remaining tokens parse, and the run succeeds and produces output. -/
theorem claim2_counterexample_garbage_token_run_succeeds :
    scanTokens (preprocess "xterm|desc,@@@,bool1,") =
      [.entry "xterm" "desc", .boolCap "bool1"] ∧
    run "xterm" "xterm|desc,@@@,bool1," "myterm" "Linux" =
      .ok ("#pragma once\n\nstatic const char terminfo_capabilities[] = \"Co\\0\" \"256\\0\" \"RGB\\0\" \"8\\0\" \"TN\\0\" \"myterm\\0\" \"name\\0\" \"myterm\\0\" \"query-os-name\\0\" \"Linux\";\n") := by
  decide

/-- Tokens of the three capability alternatives, as opposed to an entry
header. -/
def isCapToken : Token → Bool
  | .entry _ _ => false
  | .boolCap _ => true
  | .intCap _ _ => true
  | .strCap _ _ => true

/-- Claim C2, amended part.  A capability token that precedes every
entry header is a fatal error: whenever the first token of the scanned
stream is a capability token, the whole run fails with no output.
Unmatched text, by contrast, produces no token at all and never aborts
the run (see the counterexample). -/
theorem claim2_capability_before_header_fatal
    (srcName text targetName osName : String) (t : Token) (ts : List Token)
    (hscan : scanTokens (preprocess text) = t :: ts)
    (hcap : isCapToken t = true) :
    ∃ e, run srcName text targetName osName = .error e := by
  unfold run
  rw [hscan]
  cases t with
  | entry n d => simp [isCapToken] at hcap
  | boolCap n => exact ⟨.assertionError, rfl⟩
  | intCap n v =>
      cases h : pyIntLit v.data with
      | error e => exact ⟨e, by simp only [parseTokens, parseGo, h]; rfl⟩
      | ok iv => exact ⟨.assertionError, by simp only [parseTokens, parseGo, h]; rfl⟩
  | strCap n v => exact ⟨.assertionError, rfl⟩

/-- Witness for claim C2's amended theorem at a concrete input: the
stream of `bool1,xterm|d,` starts with a capability token and the run
fails. -/
theorem claim2_capability_before_header_fatal_witness :
    scanTokens (preprocess "bool1,xterm|d,") =
      [.boolCap "bool1", .entry "xterm" "d"] ∧
    ∃ e, run "xterm" "bool1,xterm|d," "myterm" "Linux" = .error e :=
  ⟨by decide,
   claim2_capability_before_header_fatal "xterm" "bool1,xterm|d," "myterm" "Linux"
     (.boolCap "bool1") [.entry "xterm" "d"] (by decide) (by decide)⟩

/-- Claim C3, counterexample.  The claim states that the Co insertion is
an unconditional overwrite not subject to the uniqueness-on-insert
constraint, for any input fragment.  The code inserts Co through
`add_capability`, whose assert fires when the fragment already defines
Co: patching such a fragment fails instead of overwriting. -/
theorem claim3_counterexample_existing_Co_fatal :
    patch ⟨"f", "d", [("Co", .intCap "Co" 17)]⟩ "myterm" "Linux" =
      .error .assertionError := by decide

/-- Claim C4.  The claim states every double quote in a serialized name
or value is emitted with a backslash prefix.  The Python replacement
`value.replace('"', '\"')` replaces a quote by a quote — the literal
`'\"'` is just `"` — so nothing is escaped: the serialized output of a
capability with value `a"b` contains the quote bare, with no backslash
before it, as this evaluation of the serializer and of a whole run
shows. -/
theorem claim4_quote_not_escaped :
    escapeQuote "a\"b".data = "a\"b".data ∧
    serializeEntry [.strCap "str1" "a\"b"] = "str1\\0\" \"a\"b" ∧
    run "q" "q|d,use=q2,q2|d2,str1=a\"b," "myterm" "Linux" =
      .ok ("#pragma once\n\nstatic const char terminfo_capabilities[] = \"Co\\0\" \"256\\0\" \"RGB\\0\" \"8\\0\" \"TN\\0\" \"myterm\\0\" \"name\\0\" \"myterm\\0\" \"query-os-name\\0\" \"Linux\\0\" \"str1\\0\" \"a\"b\";\n") := by
  refine ⟨by decide, by decide, by decide⟩

/-- Claim C6.  Adding a capability whose name is already present in the
fragment fails with the assertion error rather than overwriting; adding
a fresh name succeeds, appends the capability under its name, and a
lookup of that name finds it. -/
theorem claim6_duplicate_add_rejected (f : Fragment) (cap : Capability) :
    (cap.name ∈ f.caps.map Prod.fst →
      f.add_capability cap = .error .assertionError) ∧
    (cap.name ∉ f.caps.map Prod.fst →
      f.add_capability cap = .ok ⟨f.name, f.description, f.caps ++ [(cap.name, cap)]⟩ ∧
      lookupCap (f.caps ++ [(cap.name, cap)]) cap.name = some cap) := by
  constructor
  · intro h
    simp [Fragment.add_capability, h]
  · intro h
    refine ⟨by simp [Fragment.add_capability, h], ?_⟩
    rw [lookupCap_append_right _ _ _ h]
    simp [lookupCap]

/-- Witness for claim C6: a duplicate insertion fails and a fresh
insertion succeeds on a concrete fragment. -/
theorem claim6_duplicate_add_rejected_witness :
    (Fragment.add_capability ⟨"x", "d", [("a", .boolCap "a")]⟩ (.boolCap "a") =
      .error .assertionError) ∧
    (Fragment.add_capability ⟨"x", "d", [("a", .boolCap "a")]⟩ (.intCap "b" 3) =
        .ok ⟨"x", "d", [("a", .boolCap "a"), ("b", .intCap "b" 3)]⟩ ∧
      lookupCap [("a", .boolCap "a"), ("b", .intCap "b" 3)] "b" =
        some (.intCap "b" 3)) :=
  ⟨(claim6_duplicate_add_rejected ⟨"x", "d", [("a", .boolCap "a")]⟩ (.boolCap "a")).1
      (by decide),
   (claim6_duplicate_add_rejected ⟨"x", "d", [("a", .boolCap "a")]⟩ (.intCap "b" 3)).2
      (by decide)⟩

theorem ctrlSub_cons_of_ne (x : Char) (l : List Char) (hx : x ≠ '^') :
    ctrlSub (x :: l) = x :: ctrlSub l := by
  cases l with
  | nil => simp [ctrlSub, hx]
  | cons y t => simp [ctrlSub, hx]

theorem ctrlSub_append_of (a l : List Char) (ha : ∀ c ∈ a, c ≠ '^') :
    ctrlSub (a ++ l) = a ++ ctrlSub l := by
  induction a with
  | nil => rfl
  | cons x rest ih =>
      rw [List.cons_append, ctrlSub_cons_of_ne x _ (ha x (List.mem_cons_self _ _)),
        ih (fun c hc => ha c (List.mem_cons_of_mem _ hc)), List.cons_append]

theorem escGuard_cons_of_ne (x : Char) (l : List Char) (hx : x ≠ '\\') :
    escGuard (x :: l) = x :: escGuard l := by
  cases l with
  | nil => simp [escGuard, hx]
  | cons y t =>
      cases t with
      | nil => simp [escGuard, hx]
      | cons z u => simp [escGuard, hx]

theorem escGuard_append_of (a l : List Char) (ha : ∀ c ∈ a, c ≠ '\\') :
    escGuard (a ++ l) = a ++ escGuard l := by
  induction a with
  | nil => rfl
  | cons x rest ih =>
      rw [List.cons_append, escGuard_cons_of_ne x _ (ha x (List.mem_cons_self _ _)),
        ih (fun c hc => ha c (List.mem_cons_of_mem _ hc)), List.cons_append]

theorem escAfter_cons_of_ne (x : Char) (l : List Char) (hx : x ≠ '\\') :
    escAfter (x :: l) = x :: escAfter l := by
  cases l with
  | nil => simp [escAfter, hx]
  | cons y t => simp [escAfter, hx]

theorem escAfter_append_of (a l : List Char) (ha : ∀ c ∈ a, c ≠ '\\') :
    escAfter (a ++ l) = a ++ escAfter l := by
  induction a with
  | nil => rfl
  | cons x rest ih =>
      rw [List.cons_append, escAfter_cons_of_ne x _ (ha x (List.mem_cons_self _ _)),
        ih (fun c hc => ha c (List.mem_cons_of_mem _ hc)), List.cons_append]

theorem unescapeMeta_cons_of_ne (x : Char) (l : List Char) (hx : x ≠ '\\') :
    unescapeMeta (x :: l) = x :: unescapeMeta l := by
  cases l with
  | nil => simp [unescapeMeta, hx]
  | cons y t => simp [unescapeMeta, hx]

theorem unescapeMeta_append_of (a l : List Char) (ha : ∀ c ∈ a, c ≠ '\\') :
    unescapeMeta (a ++ l) = a ++ unescapeMeta l := by
  induction a with
  | nil => rfl
  | cons x rest ih =>
      rw [List.cons_append, unescapeMeta_cons_of_ne x _ (ha x (List.mem_cons_self _ _)),
        ih (fun c hc => ha c (List.mem_cons_of_mem _ hc)), List.cons_append]

theorem subS_cons_of_ne (x : Char) (l : List Char) (hx : x ≠ '\\') :
    subS (x :: l) = x :: subS l := by
  cases l with
  | nil => simp [subS, hx]
  | cons y t => simp [subS, hx]

theorem subS_append_of (a l : List Char) (ha : ∀ c ∈ a, c ≠ '\\') :
    subS (a ++ l) = a ++ subS l := by
  induction a with
  | nil => rfl
  | cons x rest ih =>
      rw [List.cons_append, subS_cons_of_ne x _ (ha x (List.mem_cons_self _ _)),
        ih (fun c hc => ha c (List.mem_cons_of_mem _ hc)), List.cons_append]

theorem ctrlSub_bsl (t : List Char) :
    ctrlSub ('\\' :: 'l' :: t) = '\\' :: 'l' :: ctrlSub t := by
  rw [ctrlSub_cons_of_ne _ _ (by decide), ctrlSub_cons_of_ne _ _ (by decide)]

theorem escGuard_bsl (t : List Char) :
    escGuard ('\\' :: 'l' :: t) = '\\' :: 'l' :: escGuard t := by
  cases t with
  | nil => simp [escGuard]
  | cons z u => simp [escGuard]

theorem escAfter_bsl (t : List Char) :
    escAfter ('\\' :: 'l' :: t) = '\\' :: 'l' :: escAfter t := by
  simp [escAfter]

theorem unescapeMeta_bsl (t : List Char) :
    unescapeMeta ('\\' :: 'l' :: t) = '\\' :: 'l' :: unescapeMeta t := by
  simp [unescapeMeta]

theorem subS_bsl (t : List Char) :
    subS ('\\' :: 'l' :: t) = '\\' :: 'l' :: subS t := by
  simp [subS]

theorem hasBackslashL_append (a t : List Char) :
    hasBackslashL (a ++ '\\' :: 'l' :: t) = true := by
  induction a with
  | nil => rfl
  | cons x rest ih =>
      cases h : rest ++ '\\' :: 'l' :: t with
      | nil => exact absurd h (by simp)
      | cons y u =>
          rw [List.cons_append, h]
          cases Decidable.em (x = '\\' ∧ y = 'l') with
          | inl hxy => simp [hasBackslashL, hxy.1, hxy.2]
          | inr hxy =>
              have : hasBackslashL (x :: y :: u) = hasBackslashL (y :: u) := by
                by_cases h1 : x = '\\'
                · by_cases h2 : y = 'l'
                  · exact absurd ⟨h1, h2⟩ hxy
                  · simp [hasBackslashL, h1, h2]
                · simp [hasBackslashL, h1]
              rw [this, ← h, ih]

/-- Claim C9.  Any String-capability value that contains a genuine `\l`
escape — a backslash-l pair whose preceding text contains no backslash
and no caret, so that no earlier escape can consume the backslash —
makes the constructor fail with NotImplementedError, whatever follows. -/
theorem claim9_backslash_l_fatal (name : String) (a b : List Char)
    (ha : ∀ c ∈ a, c ≠ '\\' ∧ c ≠ '^') :
    mkStringCapability name ⟨a ++ '\\' :: 'l' :: b⟩ = .error .notImplementedError := by
  have hbs : ∀ c ∈ a, c ≠ '\\' := fun c hc => (ha c hc).1
  have hct : ∀ c ∈ a, c ≠ '^' := fun c hc => (ha c hc).2
  unfold mkStringCapability translateValue
  dsimp only
  rw [ctrlSub_append_of _ _ hct, ctrlSub_bsl,
    escGuard_append_of _ _ hbs, escGuard_bsl,
    escAfter_append_of _ _ hbs, escAfter_bsl,
    unescapeMeta_append_of _ _ hbs, unescapeMeta_bsl,
    subS_append_of _ _ hbs, subS_bsl,
    hasBackslashL_append]
  rfl

/-- Witness for claim C9: the value `a\lx` (clean prefix `a`) fails. -/
theorem claim9_backslash_l_fatal_witness :
    (∀ c ∈ ['a'], c ≠ '\\' ∧ c ≠ '^') ∧
    mkStringCapability "cap" ⟨['a'] ++ '\\' :: 'l' :: ['x']⟩ =
      .error .notImplementedError :=
  ⟨by decide, claim9_backslash_l_fatal "cap" ['a'] ['x'] (by decide)⟩

/-- Claim C8.  Within a String-capability value, the first
control-character escape `^X` (any prefix before it containing no caret)
with X in the recognized class `@A-Z[\]^_?` is translated to its
control-code equivalent: `^?` becomes the DEL escape `\x7f`, and any
other `^X` becomes the character code `ord(X) - ord('@')` rendered as a
two-hex-digit escape, while translation continues on the rest. -/
theorem claim8_ctrl_escape_translation (a : List Char) (X : Char) (rest : List Char)
    (hX : ctrlClass X = true) (ha : ∀ c ∈ a, c ≠ '^') :
    ctrlSub (a ++ '^' :: X :: rest) =
      a ++ (if X = '?' then ['\\', 'x', '7', 'f']
            else '\\' :: 'x' :: hex2 (X.toNat - '@'.toNat)) ++ ctrlSub rest := by
  rw [ctrlSub_append_of _ _ ha]
  show a ++ ctrlSub ('^' :: X :: rest) = _
  rw [show ctrlSub ('^' :: X :: rest) = translate_ctrl_chr X ++ ctrlSub rest from by
    simp [ctrlSub, hX]]
  rw [translate_ctrl_chr, List.append_assoc]

/-- Witness for claim C8: `a^G` translates to `a\x07` and `a^?` to
`a\x7f`. -/
theorem claim8_ctrl_escape_translation_witness :
    (ctrlClass 'G' = true ∧ (∀ c ∈ ['a'], c ≠ '^') ∧
      ctrlSub (['a'] ++ '^' :: 'G' :: ['z']) =
        ['a'] ++ ['\\', 'x', '0', '7'] ++ ctrlSub ['z']) ∧
    (ctrlClass '?' = true ∧
      ctrlSub (['a'] ++ '^' :: '?' :: []) =
        ['a'] ++ ['\\', 'x', '7', 'f'] ++ ctrlSub []) :=
  ⟨⟨by decide, by decide,
    by simpa using claim8_ctrl_escape_translation ['a'] 'G' ['z'] (by decide) (by decide)⟩,
   ⟨by decide,
    by simpa using claim8_ctrl_escape_translation ['a'] '?' [] (by decide) (by decide)⟩⟩

theorem isOctalDigit_ne_bs (c : Char) (h : isOctalDigit c = true) : c ≠ '\\' := by
  intro hc
  subst hc
  simp [isOctalDigit] at h

theorem escAfter_bsE (t : List Char) :
    escAfter ('\\' :: 'E' :: t) = '\\' :: '0' :: '3' :: '3' :: escAfter t := by
  simp [escAfter]

theorem escAfter_bse (t : List Char) :
    escAfter ('\\' :: 'e' :: t) = '\\' :: '0' :: '3' :: '3' :: escAfter t := by
  simp [escAfter]

theorem escAfter_cons_bs (l : List Char)
    (h1 : ∀ t, l ≠ 'E' :: t) (h2 : ∀ t, l ≠ 'e' :: t) :
    escAfter ('\\' :: l) = '\\' :: escAfter l := by
  cases l with
  | nil => simp [escAfter]
  | cons z w =>
      have hz1 : z ≠ 'E' := fun hz => h1 w (by rw [hz])
      have hz2 : z ≠ 'e' := fun hz => h2 w (by rw [hz])
      simp [escAfter, hz1, hz2]

theorem escAfter_octSplit (c : Char) (G : List Char) (hc : c ≠ '\\') :
    escAfter (octSplitChars ++ c :: G) = octSplitChars ++ c :: escAfter G := by
  show escAfter ('\\' :: '0' :: '3' :: '3' :: '"' :: ' ' :: '"' :: c :: G) = _
  rw [show escAfter ('\\' :: '0' :: '3' :: '3' :: '"' :: ' ' :: '"' :: c :: G) =
      '\\' :: escAfter ('0' :: '3' :: '3' :: '"' :: ' ' :: '"' :: c :: G) from by
    simp [escAfter]]
  rw [escAfter_cons_of_ne '0' _ (by decide), escAfter_cons_of_ne '3' _ (by decide),
    escAfter_cons_of_ne '3' _ (by decide), escAfter_cons_of_ne '"' _ (by decide),
    escAfter_cons_of_ne ' ' _ (by decide), escAfter_cons_of_ne '"' _ (by decide),
    escAfter_cons_of_ne c _ hc]
  rfl

theorem escGuard_starts_bs (u : List Char) : ∃ t, escGuard ('\\' :: u) = '\\' :: t := by
  cases u with
  | nil => exact ⟨[], by simp [escGuard]⟩
  | cons z w =>
      cases w with
      | nil =>
          by_cases hz : z = 'E'
          · exact ⟨['E'], by subst hz; simp [escGuard]⟩
          · by_cases hz' : z = 'e'
            · exact ⟨['e'], by subst hz'; simp [escGuard]⟩
            · exact ⟨[z], by simp [escGuard, hz, hz']⟩
      | cons c2 u2 =>
          by_cases hz : z = 'E'
          · subst hz
            by_cases hc : isOctalDigit c2 = true
            · exact ⟨'0' :: '3' :: '3' :: '"' :: ' ' :: '"' :: c2 :: escGuard u2,
                by simp [escGuard, hc, octSplitChars]⟩
            · exact ⟨'E' :: escGuard (c2 :: u2), by simp [escGuard, hc]⟩
          · by_cases hz' : z = 'e'
            · subst hz'
              by_cases hc : isOctalDigit c2 = true
              · exact ⟨'0' :: '3' :: '3' :: '"' :: ' ' :: '"' :: c2 :: escGuard u2,
                  by simp [escGuard, hc, octSplitChars]⟩
              · exact ⟨'e' :: escGuard (c2 :: u2), by simp [escGuard, hc]⟩
            · exact ⟨escGuard (z :: c2 :: u2), by simp [escGuard, hz, hz']⟩

theorem escGuard_head_not_Ee (y : Char) (u : List Char)
    (hy1 : y ≠ 'E') (hy2 : y ≠ 'e') :
    (∀ t, escGuard (y :: u) ≠ 'E' :: t) ∧ (∀ t, escGuard (y :: u) ≠ 'e' :: t) := by
  by_cases hb : y = '\\'
  · subst hb
    obtain ⟨t, ht⟩ := escGuard_starts_bs u
    rw [ht]
    exact ⟨fun s hs => by simp at hs, fun s hs => by simp at hs⟩
  · rw [escGuard_cons_of_ne y u hb]
    refine ⟨fun s hs => ?_, fun s hs => ?_⟩
    · exact hy1 (List.cons_eq_cons.mp hs).1
    · exact hy2 (List.cons_eq_cons.mp hs).1

theorem escSpecOnePass_cons_of_ne (x : Char) (l : List Char) (hx : x ≠ '\\') :
    escSpecOnePass (x :: l) = x :: escSpecOnePass l := by
  cases l with
  | nil => simp [escSpecOnePass, hx]
  | cons y t =>
      cases t with
      | nil => simp [escSpecOnePass, hx]
      | cons z u => simp [escSpecOnePass, hx]

/-- Claim C5.  The octal-guard step followed by the plain ESC step is
exactly the one-pass specification: an `\E` or `\e` escape immediately
followed by an octal digit 0-7 becomes `\033` plus a close-quote,
space, reopen-quote split plus the digit, and an ESC escape not
followed by such a digit becomes `\033` with no quote split — the
split occurs exactly in the former case. -/
theorem claim5_esc_split_exactly_on_octal (v : List Char) :
    escAfter (escGuard v) = escSpecOnePass v := by
  induction v using escGuard.induct with
  | case1 c rest hc ih =>
      rw [show escGuard ('\\' :: 'E' :: c :: rest) = octSplitChars ++ c :: escGuard rest
          from by simp [escGuard, hc]]
      rw [escAfter_octSplit c _ (isOctalDigit_ne_bs c hc), ih]
      simp [escSpecOnePass, hc]
  | case2 c rest hc ih =>
      rw [show escGuard ('\\' :: 'E' :: c :: rest) = '\\' :: 'E' :: escGuard (c :: rest)
          from by simp [escGuard, hc]]
      rw [escAfter_bsE, ih]
      simp [escSpecOnePass, hc]
  | case3 c rest hc ih =>
      rw [show escGuard ('\\' :: 'e' :: c :: rest) = octSplitChars ++ c :: escGuard rest
          from by simp [escGuard, hc]]
      rw [escAfter_octSplit c _ (isOctalDigit_ne_bs c hc), ih]
      simp [escSpecOnePass, hc]
  | case4 c rest hc ih =>
      rw [show escGuard ('\\' :: 'e' :: c :: rest) = '\\' :: 'e' :: escGuard (c :: rest)
          from by simp [escGuard, hc]]
      rw [escAfter_bse, ih]
      simp [escSpecOnePass, hc]
  | case5 c rest hne1 hne2 ih =>
      by_cases hb : c = '\\'
      · subst hb
        cases rest with
        | nil => decide
        | cons y u =>
            by_cases hyE : y = 'E'
            · subst hyE
              cases u with
              | nil => decide
              | cons z w => exact (hne1 z w rfl rfl).elim
            · by_cases hye : y = 'e'
              · subst hye
                cases u with
                | nil => decide
                | cons z w => exact (hne2 z w rfl rfl).elim
              · rw [show escGuard ('\\' :: y :: u) = '\\' :: escGuard (y :: u) from by
                    simp [escGuard, hyE, hye]]
                obtain ⟨g1, g2⟩ := escGuard_head_not_Ee y u hyE hye
                rw [escAfter_cons_bs _ g1 g2, ih]
                simp [escSpecOnePass, hyE, hye]
      · rw [escGuard_cons_of_ne c rest hb, escAfter_cons_of_ne c _ hb, ih,
          escSpecOnePass_cons_of_ne c rest hb]
  | case6 => rfl

theorem char_toNat_injective : Function.Injective Char.toNat :=
  StrictMono.injective fun _ _ h => h

theorem charListLe_total : ∀ a b : List Char,
    charListLe a b = true ∨ charListLe b a = true
  | [], _ => Or.inl rfl
  | _ :: _, [] => Or.inr rfl
  | x :: xs, y :: ys => by
      by_cases h1 : x.toNat < y.toNat
      · left; simp [charListLe, h1]
      · by_cases h2 : y.toNat < x.toNat
        · right; simp [charListLe, h2]
        · rcases charListLe_total xs ys with h | h
          · left; simpa [charListLe, h1, h2] using h
          · right; simpa [charListLe, h2, h1] using h

theorem charListLe_trans : ∀ a b c : List Char,
    charListLe a b = true → charListLe b c = true → charListLe a c = true
  | [], _, _, _, _ => rfl
  | _ :: _, [], _, h, _ => by simp [charListLe] at h
  | _ :: _, _ :: _, [], _, h => by simp [charListLe] at h
  | x :: xs, y :: ys, z :: zs, h1, h2 => by
      rcases Nat.lt_trichotomy x.toNat y.toNat with hxy | hxy | hxy
      · rcases Nat.lt_trichotomy y.toNat z.toNat with hyz | hyz | hyz
        · simp [charListLe, show x.toNat < z.toNat from hxy.trans hyz]
        · simp [charListLe, show x.toNat < z.toNat from hyz ▸ hxy]
        · simp [charListLe, hyz, Nat.lt_asymm hyz] at h2
      · rcases Nat.lt_trichotomy y.toNat z.toNat with hyz | hyz | hyz
        · simp [charListLe, show x.toNat < z.toNat from hxy ▸ hyz]
        · have hxz : ¬ x.toNat < z.toNat := by omega
          have hzx : ¬ z.toNat < x.toNat := by omega
          have n1 : ¬ x.toNat < y.toNat := by omega
          have n2 : ¬ y.toNat < x.toNat := by omega
          have n3 : ¬ y.toNat < z.toNat := by omega
          have n4 : ¬ z.toNat < y.toNat := by omega
          have e1 : charListLe xs ys = true := by
            simpa [charListLe, n1, n2] using h1
          have e2 : charListLe ys zs = true := by
            simpa [charListLe, n3, n4] using h2
          simpa [charListLe, hxz, hzx] using charListLe_trans xs ys zs e1 e2
        · simp [charListLe, hyz, Nat.lt_asymm hyz] at h2
      · simp [charListLe, hxy, Nat.lt_asymm hxy] at h1

theorem charListLe_antisymm : ∀ a b : List Char,
    charListLe a b = true → charListLe b a = true → a = b
  | [], [], _, _ => rfl
  | [], _ :: _, _, h => by simp [charListLe] at h
  | _ :: _, [], h, _ => by simp [charListLe] at h
  | x :: xs, y :: ys, h1, h2 => by
      rcases Nat.lt_trichotomy x.toNat y.toNat with hxy | hxy | hxy
      · simp [charListLe, hxy, Nat.lt_asymm hxy] at h2
      · have hx : x = y := char_toNat_injective hxy
        have n1 : ¬ x.toNat < y.toNat := by omega
        have n2 : ¬ y.toNat < x.toNat := by omega
        have e1 : charListLe xs ys = true := by
          simpa [charListLe, n1, n2] using h1
        have e2 : charListLe ys xs = true := by
          simpa [charListLe, n1, n2] using h2
        rw [hx, charListLe_antisymm xs ys e1 e2]
      · simp [charListLe, hxy, Nat.lt_asymm hxy] at h1

theorem capLe_total (a b : Capability) : capLe a b = true ∨ capLe b a = true :=
  charListLe_total a.name.data b.name.data

theorem capLe_antisymm_name (a b : Capability)
    (h1 : capLe a b = true) (h2 : capLe b a = true) : a.name = b.name := by
  have := charListLe_antisymm a.name.data b.name.data h1 h2
  exact congrArg String.mk this

theorem orderedInsertCap_perm (c : Capability) (l : List Capability) :
    (orderedInsertCap c l).Perm (c :: l) := by
  induction l with
  | nil => rfl
  | cons d rest ih =>
      by_cases h : capLe c d = true
      · simp [orderedInsertCap, h]
      · simpa [orderedInsertCap, h] using
          ((ih.cons d).trans (List.Perm.swap c d rest))

theorem sortedCaps_perm (l : List Capability) : (sortedCaps l).Perm l := by
  induction l with
  | nil => rfl
  | cons c rest ih =>
      exact (orderedInsertCap_perm c (sortedCaps rest)).trans (ih.cons c)

theorem pairwise_orderedInsertCap (c : Capability) (l : List Capability)
    (hl : l.Pairwise (fun a b => capLe a b = true)) :
    (orderedInsertCap c l).Pairwise (fun a b => capLe a b = true) := by
  induction l with
  | nil => simp [orderedInsertCap]
  | cons d rest ih =>
      rcases List.pairwise_cons.mp hl with ⟨hd, hrest⟩
      by_cases h : capLe c d = true
      · rw [show orderedInsertCap c (d :: rest) = c :: d :: rest from by
          simp [orderedInsertCap, h]]
        refine List.pairwise_cons.mpr ⟨?_, hl⟩
        intro x hx
        rcases List.mem_cons.mp hx with hx | hx
        · exact hx ▸ h
        · exact charListLe_trans _ _ _ h (hd x hx)
      · have hdc : capLe d c = true := (capLe_total c d).resolve_left h
        rw [show orderedInsertCap c (d :: rest) = d :: orderedInsertCap c rest from by
          simp [orderedInsertCap, h]]
        refine List.pairwise_cons.mpr ⟨?_, ih hrest⟩
        intro x hx
        rcases List.mem_cons.mp ((orderedInsertCap_perm c rest).mem_iff.mp hx) with hx | hx
        · exact hx ▸ hdc
        · exact hd x hx

theorem sortedCaps_pairwise (l : List Capability) :
    (sortedCaps l).Pairwise (fun a b => capLe a b = true) := by
  induction l with
  | nil => simp [sortedCaps]
  | cons c rest ih => exact pairwise_orderedInsertCap c (sortedCaps rest) ih

/-- Claim C7.  Serialization is insertion-order independent: two lists
holding the same logical capability set (permutations of one another,
with the dict invariant of pairwise-distinct names) serialize to the
same output string — the sort by name alone determines the order — and
serializing the same set twice is trivially byte-identical because the
serializer is a function. -/
theorem claim7_serialization_order_independent (l₁ l₂ : List Capability)
    (hperm : l₁.Perm l₂) (hnd : (l₁.map Capability.name).Nodup) :
    serializeEntry l₁ = serializeEntry l₂ := by
  have hsort : sortedCaps l₁ = sortedCaps l₂ := by
    have p₁ := sortedCaps_perm l₁
    have p₂ := sortedCaps_perm l₂
    have p : (sortedCaps l₁).Perm (sortedCaps l₂) := p₁.trans (hperm.trans p₂.symm)
    have nd₁ : ((sortedCaps l₁).map Capability.name).Nodup :=
      ((p₁.map Capability.name).nodup_iff).mpr hnd
    have nd₂ : ((sortedCaps l₂).map Capability.name).Nodup :=
      ((p₂.map Capability.name).nodup_iff).mpr
        (((hperm.map Capability.name).nodup_iff).mp hnd)
    have s₁ := (sortedCaps_pairwise l₁).and
      ((List.pairwise_map.mp) nd₁)
    have s₂ := (sortedCaps_pairwise l₂).and
      ((List.pairwise_map.mp) nd₂)
    haveI : IsAntisymm Capability
        (fun a b => capLe a b = true ∧ Capability.name a ≠ Capability.name b) := by
      constructor
      intro a b h1 h2
      exact absurd (capLe_antisymm_name a b h1.1 h2.1) h1.2
    exact List.eq_of_perm_of_sorted p s₁ s₂
  unfold serializeEntry
  rw [hsort]

/-- Witness for claim C7: two insertion orders of the same set
serialize identically. -/
theorem claim7_serialization_order_independent_witness :
    ([Capability.intCap "b" 1, Capability.boolCap "a"].Perm
      [Capability.boolCap "a", Capability.intCap "b" 1]) ∧
    ([Capability.intCap "b" 1, Capability.boolCap "a"].map Capability.name).Nodup ∧
    serializeEntry [Capability.intCap "b" 1, Capability.boolCap "a"] =
      serializeEntry [Capability.boolCap "a", Capability.intCap "b" 1] :=
  ⟨by decide, by decide,
   claim7_serialization_order_independent _ _ (by decide) (by decide)⟩

theorem except_bind_ok {α β : Type} (x : α) (k : α → Except Err β) :
    (Except.ok x : Except Err α) >>= k = k x := rfl

theorem not_mem_of_countKey_eq_zero (a : List (String × Capability)) (n : String)
    (h : countKey a n = 0) : n ∉ a.map Prod.fst := by
  intro hm
  have := countKey_pos_of_mem a n hm
  omega

theorem countKey_singleton (k : String) (c : Capability) (n : String) :
    countKey [(k, c)] n = if k = n then 1 else 0 := by
  by_cases h : k = n <;> simp [countKey, List.filter, h]

theorem lookupCap_cons (k : String) (c : Capability)
    (rest : List (String × Capability)) (n : String) :
    lookupCap ((k, c) :: rest) n = if k = n then some c else lookupCap rest n := rfl

/-- Claim C3, amended.  For an input fragment that does not already
define Co, TN, name or query-os-name, whose RGB key respects the dict
multiplicity invariant, and for a target name and OS name that the
String-capability escape translation leaves unchanged, the patch step
succeeds and its result holds exactly one Co=256, exactly one RGB=8,
and exactly one TN and one name capability both equal to the supplied
target entry name — regardless of whether the input fragment defined
RGB.  (When Co, TN, name or query-os-name is already present the patch
step instead fails fatally: see the counterexample.) -/
theorem claim3_patch_amended (f : Fragment) (targetName osName : String)
    (hCo : "Co" ∉ f.caps.map Prod.fst)
    (hTN : "TN" ∉ f.caps.map Prod.fst)
    (hname : "name" ∉ f.caps.map Prod.fst)
    (hq : "query-os-name" ∉ f.caps.map Prod.fst)
    (hRGB : countKey f.caps "RGB" ≤ 1)
    (htgt : translateValue targetName.data = .ok targetName.data)
    (hos : translateValue osName.data = .ok osName.data) :
    ∃ g, patch f targetName osName = .ok g ∧
      countKey g.caps "Co" = 1 ∧
      lookupCap g.caps "Co" = some (.intCap "Co" 256) ∧
      countKey g.caps "RGB" = 1 ∧
      lookupCap g.caps "RGB" = some (.intCap "RGB" 8) ∧
      countKey g.caps "TN" = 1 ∧
      lookupCap g.caps "TN" = some (.strCap "TN" targetName) ∧
      countKey g.caps "name" = 1 ∧
      lookupCap g.caps "name" = some (.strCap "name" targetName) := by
  obtain ⟨caps0, hdel, hCo0, hTN0, hname0, hq0, hRGB0⟩ :
      ∃ caps0, tryDelRGB f = ⟨f.name, f.description, caps0⟩ ∧
        "Co" ∉ caps0.map Prod.fst ∧ "TN" ∉ caps0.map Prod.fst ∧
        "name" ∉ caps0.map Prod.fst ∧ "query-os-name" ∉ caps0.map Prod.fst ∧
        countKey caps0 "RGB" = 0 := by
    by_cases hr : "RGB" ∈ f.caps.map Prod.fst
    · refine ⟨f.caps.eraseP (fun p => p.1 = "RGB"),
        by simp [tryDelRGB, Fragment.del_capability, hr],
        not_mem_keys_eraseP _ _ _ hCo, not_mem_keys_eraseP _ _ _ hTN,
        not_mem_keys_eraseP _ _ _ hname, not_mem_keys_eraseP _ _ _ hq, ?_⟩
      have h1 := countKey_eraseP_self f.caps "RGB"
      have h2 := countKey_pos_of_mem f.caps "RGB" hr
      omega
    · exact ⟨f.caps, by simp [tryDelRGB, Fragment.del_capability, hr], hCo, hTN,
        hname, hq, countKey_eq_zero_of_not_mem _ _ hr⟩
  have hRGBmem : "RGB" ∉ caps0.map Prod.fst :=
    not_mem_of_countKey_eq_zero caps0 "RGB" hRGB0
  have hTNcap : mkStringCapability "TN" targetName = .ok (.strCap "TN" targetName) := by
    rw [mkStringCapability, htgt]; rfl
  have hnamecap : mkStringCapability "name" targetName =
      .ok (.strCap "name" targetName) := by
    rw [mkStringCapability, htgt]; rfl
  have hqcap : mkStringCapability "query-os-name" osName =
      .ok (.strCap "query-os-name" osName) := by
    rw [mkStringCapability, hos]; rfl
  have s1 : (Fragment.mk f.name f.description caps0).add_capability
      (.intCap "Co" 256) = .ok ⟨f.name, f.description,
        caps0 ++ [("Co", .intCap "Co" 256)]⟩ := by
    simp [Fragment.add_capability, Capability.name, hCo0]
  have s2 : (Fragment.mk f.name f.description
      (caps0 ++ [("Co", .intCap "Co" 256)])).add_capability
      (.strCap "TN" targetName) = .ok ⟨f.name, f.description,
        caps0 ++ [("Co", .intCap "Co" 256)] ++ [("TN", .strCap "TN" targetName)]⟩ := by
    simp [Fragment.add_capability, Capability.name, hTN0]
  have s3 : (Fragment.mk f.name f.description
      (caps0 ++ [("Co", .intCap "Co" 256)] ++
        [("TN", .strCap "TN" targetName)])).add_capability
      (.strCap "name" targetName) = .ok ⟨f.name, f.description,
        caps0 ++ [("Co", .intCap "Co" 256)] ++ [("TN", .strCap "TN" targetName)] ++
          [("name", .strCap "name" targetName)]⟩ := by
    simp [Fragment.add_capability, Capability.name, hname0]
  have s4 : (Fragment.mk f.name f.description
      (caps0 ++ [("Co", .intCap "Co" 256)] ++ [("TN", .strCap "TN" targetName)] ++
        [("name", .strCap "name" targetName)])).add_capability
      (.intCap "RGB" 8) = .ok ⟨f.name, f.description,
        caps0 ++ [("Co", .intCap "Co" 256)] ++ [("TN", .strCap "TN" targetName)] ++
          [("name", .strCap "name" targetName)] ++ [("RGB", .intCap "RGB" 8)]⟩ := by
    simp [Fragment.add_capability, Capability.name, hRGBmem]
  have s5 : (Fragment.mk f.name f.description
      (caps0 ++ [("Co", .intCap "Co" 256)] ++ [("TN", .strCap "TN" targetName)] ++
        [("name", .strCap "name" targetName)] ++
          [("RGB", .intCap "RGB" 8)])).add_capability
      (.strCap "query-os-name" osName) = .ok ⟨f.name, f.description,
        caps0 ++ [("Co", .intCap "Co" 256)] ++ [("TN", .strCap "TN" targetName)] ++
          [("name", .strCap "name" targetName)] ++ [("RGB", .intCap "RGB" 8)] ++
            [("query-os-name", .strCap "query-os-name" osName)]⟩ := by
    simp [Fragment.add_capability, Capability.name, hq0]
  refine ⟨⟨f.name, f.description,
    caps0 ++ [("Co", .intCap "Co" 256)] ++ [("TN", .strCap "TN" targetName)] ++
      [("name", .strCap "name" targetName)] ++ [("RGB", .intCap "RGB" 8)] ++
        [("query-os-name", .strCap "query-os-name" osName)]⟩, ?_, ?_, ?_, ?_, ?_, ?_, ?_, ?_, ?_⟩
  · unfold patch
    dsimp only
    rw [hdel, s1, except_bind_ok, hTNcap, except_bind_ok, s2, except_bind_ok,
      hnamecap, except_bind_ok, s3, except_bind_ok, s4, except_bind_ok,
      hqcap, except_bind_ok, s5]
  · simp [countKey_append, countKey_singleton,
      countKey_eq_zero_of_not_mem _ _ hCo0, countKey, List.filter]
    intro a b hab ha
    exact hCo0 (ha ▸ List.mem_map_of_mem Prod.fst hab)
  · simp only [List.append_assoc]
    rw [lookupCap_append_right _ _ _ hCo0]
    simp [lookupCap_cons]
  · simp [countKey_append, countKey_singleton, hRGB0, countKey, List.filter]
    intro a b hab ha
    exact hRGBmem (ha ▸ List.mem_map_of_mem Prod.fst hab)
  · simp only [List.append_assoc]
    rw [lookupCap_append_right _ _ _ hRGBmem]
    simp [lookupCap_cons]
  · simp [countKey_append, countKey_singleton,
      countKey_eq_zero_of_not_mem _ _ hTN0, countKey, List.filter]
    intro a b hab ha
    exact hTN0 (ha ▸ List.mem_map_of_mem Prod.fst hab)
  · simp only [List.append_assoc]
    rw [lookupCap_append_right _ _ _ hTN0]
    simp [lookupCap_cons]
  · simp [countKey_append, countKey_singleton,
      countKey_eq_zero_of_not_mem _ _ hname0, countKey, List.filter]
    intro a b hab ha
    exact hname0 (ha ▸ List.mem_map_of_mem Prod.fst hab)
  · simp only [List.append_assoc]
    rw [lookupCap_append_right _ _ _ hname0]
    simp [lookupCap_cons]

/-- Witness for claim C3's amended theorem at a concrete fragment with
one boolean capability and an RGB capability to be replaced. -/
theorem claim3_patch_amended_witness :
    ("Co" ∉ ([("bool1", Capability.boolCap "bool1"),
        ("RGB", Capability.intCap "RGB" 2)].map Prod.fst) ∧
      countKey [("bool1", Capability.boolCap "bool1"),
        ("RGB", Capability.intCap "RGB" 2)] "RGB" ≤ 1) ∧
    ∃ g, patch ⟨"xterm", "d", [("bool1", Capability.boolCap "bool1"),
        ("RGB", Capability.intCap "RGB" 2)]⟩ "myterm" "Linux" = .ok g ∧
      countKey g.caps "Co" = 1 ∧
      lookupCap g.caps "Co" = some (.intCap "Co" 256) ∧
      countKey g.caps "RGB" = 1 ∧
      lookupCap g.caps "RGB" = some (.intCap "RGB" 8) ∧
      countKey g.caps "TN" = 1 ∧
      lookupCap g.caps "TN" = some (.strCap "TN" "myterm") ∧
      countKey g.caps "name" = 1 ∧
      lookupCap g.caps "name" = some (.strCap "name" "myterm") :=
  ⟨⟨by decide, by decide⟩,
   claim3_patch_amended ⟨"xterm", "d", [("bool1", Capability.boolCap "bool1"),
       ("RGB", Capability.intCap "RGB" 2)]⟩ "myterm" "Linux"
     (by decide) (by decide) (by decide) (by decide) (by decide)
     (by decide) (by decide)⟩

/-- Erases the description of a fragment, keeping name and caps. -/
def dropDesc (f : Fragment) : Fragment := ⟨f.name, "", f.caps⟩

/-- Erases every description in a registry. -/
def regDrop (reg : Registry) : Registry := reg.map (fun p => (p.1, dropDesc p.2))

theorem add_capability_dropDesc (f : Fragment) (cap : Capability) :
    (dropDesc f).add_capability cap = (f.add_capability cap).map dropDesc := by
  by_cases h : cap.name ∈ f.caps.map Prod.fst <;>
    simp [Fragment.add_capability, dropDesc, h, Except.map]

theorem del_capability_dropDesc (f : Fragment) (n : String) :
    (dropDesc f).del_capability n = (f.del_capability n).map dropDesc := by
  by_cases h : n ∈ f.caps.map Prod.fst <;>
    simp [Fragment.del_capability, dropDesc, h, Except.map]

theorem copyCaps_dropDesc (f : Fragment) (l : List (String × Capability)) :
    copyCaps (dropDesc f) l = (copyCaps f l).map dropDesc := by
  induction l generalizing f with
  | nil => rfl
  | cons p rest ih =>
      obtain ⟨k, cap⟩ := p
      show (match (dropDesc f).add_capability cap with
        | Except.error e => Except.error e
        | Except.ok f' => copyCaps f' rest) =
        Except.map dropDesc (match f.add_capability cap with
          | Except.error e => Except.error e
          | Except.ok f' => copyCaps f' rest)
      rw [add_capability_dropDesc]
      cases f.add_capability cap with
      | error e => rfl
      | ok f' => simpa [Except.map] using ih f'

theorem lookupReg_regDrop (reg : Registry) (n : String) :
    lookupReg (regDrop reg) n = (lookupReg reg n).map dropDesc := by
  induction reg with
  | nil => rfl
  | cons p rest ih =>
      obtain ⟨k, f⟩ := p
      by_cases h : k = n
      · simp [regDrop, lookupReg, h]
      · simp only [regDrop, List.map_cons, lookupReg, h, if_neg]
        simpa [regDrop] using ih

theorem updateReg_regDrop (reg : Registry) (n : String) (f : Fragment) :
    updateReg (regDrop reg) n (dropDesc f) = regDrop (updateReg reg n f) := by
  induction reg with
  | nil => rfl
  | cons p rest ih =>
      obtain ⟨k, g⟩ := p
      by_cases h : k = n <;>
        simpa [regDrop, updateReg, h] using congrArg (fun r => r) ih

theorem dropDesc_caps (f : Fragment) : (dropDesc f).caps = f.caps := rfl

theorem expandFrag_regDrop (reg : Registry) (n : String) :
    expandFrag (regDrop reg) n = (expandFrag reg n).map regDrop := by
  unfold expandFrag
  rw [lookupReg_regDrop]
  cases hl : lookupReg reg n with
  | none => rfl
  | some f =>
      dsimp only [Option.map]
      rw [dropDesc_caps]
      cases hc : f.caps with
      | nil => rfl
      | cons p rest' =>
          obtain ⟨cn, cap⟩ := p
          dsimp only
          by_cases hu : cap.name = "use"
          · rw [if_pos hu, if_pos hu]
            cases cap with
            | boolCap m => rfl
            | intCap m v => rfl
            | strCap m v =>
                dsimp only
                rw [lookupReg_regDrop]
                cases lookupReg reg v with
                | none => rfl
                | some useFrag =>
                    dsimp only [Option.map]
                    rw [dropDesc_caps, copyCaps_dropDesc]
                    cases copyCaps f useFrag.caps with
                    | error e => rfl
                    | ok f' =>
                        dsimp only [Except.map]
                        rw [del_capability_dropDesc]
                        cases f'.del_capability (Capability.strCap m v).name with
                        | error e => rfl
                        | ok f'' =>
                            dsimp only [Except.map]
                            rw [updateReg_regDrop]
          · rw [if_neg hu, if_neg hu]
            rw [del_capability_dropDesc]
            cases f.del_capability cap.name with
            | error e => rfl
            | ok f' =>
                dsimp only [Except.map]
                rw [updateReg_regDrop]

theorem expandGo_regDrop (ns : List String) (reg : Registry) :
    expandGo (regDrop reg) ns = (expandGo reg ns).map regDrop := by
  induction ns generalizing reg with
  | nil => rfl
  | cons n rest ih =>
      show (match expandFrag (regDrop reg) n with
        | Except.error e => Except.error e
        | Except.ok reg' => expandGo reg' rest) =
        Except.map regDrop (match expandFrag reg n with
          | Except.error e => Except.error e
          | Except.ok reg' => expandGo reg' rest)
      rw [expandFrag_regDrop]
      cases expandFrag reg n with
      | error e => rfl
      | ok reg' => simpa [Except.map] using ih reg'

theorem regDrop_keys (reg : Registry) :
    (regDrop reg).map Prod.fst = reg.map Prod.fst := by
  simp [regDrop]

theorem expandAll_regDrop (reg : Registry) :
    expandAll (regDrop reg) = (expandAll reg).map regDrop := by
  unfold expandAll
  rw [regDrop_keys, expandGo_regDrop]

theorem tryDelRGB_dropDesc (f : Fragment) :
    tryDelRGB (dropDesc f) = dropDesc (tryDelRGB f) := by
  unfold tryDelRGB
  rw [del_capability_dropDesc]
  cases f.del_capability "RGB" with
  | error e => rfl
  | ok f' => rfl

theorem patch_dropDesc (f : Fragment) (t o : String) :
    patch (dropDesc f) t o = (patch f t o).map dropDesc := by
  unfold patch
  dsimp only
  rw [tryDelRGB_dropDesc, add_capability_dropDesc]
  cases (tryDelRGB f).add_capability (.intCap "Co" 256) with
  | error e => rfl
  | ok f1 =>
      dsimp only [Except.map, except_bind_ok]
      cases mkStringCapability "TN" t with
      | error e => rfl
      | ok tn =>
          dsimp only [except_bind_ok]
          rw [add_capability_dropDesc]
          cases f1.add_capability tn with
          | error e => rfl
          | ok f2 =>
              dsimp only [Except.map, except_bind_ok]
              cases mkStringCapability "name" t with
              | error e => rfl
              | ok nm =>
                  dsimp only [except_bind_ok]
                  rw [add_capability_dropDesc]
                  cases f2.add_capability nm with
                  | error e => rfl
                  | ok f3 =>
                      dsimp only [Except.map, except_bind_ok]
                      rw [add_capability_dropDesc]
                      cases f3.add_capability (.intCap "RGB" 8) with
                      | error e => rfl
                      | ok f4 =>
                          dsimp only [Except.map, except_bind_ok]
                          cases mkStringCapability "query-os-name" o with
                          | error e => rfl
                          | ok q =>
                              dsimp only [except_bind_ok]
                              rw [add_capability_dropDesc]
                              cases f4.add_capability q with
                              | error e => rfl
                              | ok g => rfl

theorem render_dropDesc (f : Fragment) : render (dropDesc f) = render f := rfl

theorem processRegistry_regDrop (reg : Registry) (s t o : String) :
    processRegistry (regDrop reg) s t o = processRegistry reg s t o := by
  unfold processRegistry
  rw [expandAll_regDrop]
  cases expandAll reg with
  | error e => rfl
  | ok reg' =>
      dsimp only [Except.map, except_bind_ok]
      rw [lookupReg_regDrop]
      cases lookupReg reg' s with
      | none => rfl
      | some entry =>
          dsimp only [Option.map]
          rw [patch_dropDesc]
          cases patch entry t o with
          | error e => rfl
          | ok e2 =>
              dsimp only [Except.map, except_bind_ok]
              rw [render_dropDesc]

/-- Claim C10.  The description fields never influence the serialized
output: two registries that agree after erasing every description (same
fragment names, same capabilities, arbitrary descriptions) produce the
same output text through the whole expand-select-patch-serialize
pipeline. -/
theorem claim10_description_never_influences_output
    (reg₁ reg₂ : Registry) (srcName targetName osName : String)
    (h : regDrop reg₁ = regDrop reg₂) :
    processRegistry reg₁ srcName targetName osName =
      processRegistry reg₂ srcName targetName osName := by
  rw [← processRegistry_regDrop reg₁, h, processRegistry_regDrop]

/-- Witness for claim C10 on two one-fragment registries differing only
in their descriptions. -/
theorem claim10_description_never_influences_output_witness :
    regDrop [("A", ⟨"A", "first description", [("b", Capability.boolCap "b")]⟩)] =
      regDrop [("A", ⟨"A", "second description", [("b", Capability.boolCap "b")]⟩)] ∧
    processRegistry [("A", ⟨"A", "first description",
        [("b", Capability.boolCap "b")]⟩)] "A" "myterm" "Linux" =
      processRegistry [("A", ⟨"A", "second description",
        [("b", Capability.boolCap "b")]⟩)] "A" "myterm" "Linux" :=
  ⟨by decide,
   claim10_description_never_influences_output
     [("A", ⟨"A", "first description", [("b", Capability.boolCap "b")]⟩)]
     [("A", ⟨"A", "second description", [("b", Capability.boolCap "b")]⟩)]
     "A" "myterm" "Linux" (by decide)⟩

end Terminfo
